import Mathlib

/-!
Verification of the affine-cipher cryptanalysis repository.

Shallow embedding of the three Python source files:
  cryptanalysis_affine.py  (modulo_formula, fill_gcd_affine, m_inverse_affine,
                            analyze_known_plaintext)
  brute_force_affine.py    (decrypt_affine, brute_force)
  exhaustive_key_affine.py (gcd, exhaustive_key)

Python integers are modelled as Int.  Python floor division a // b is
Int.fdiv, and the Python remainder a % b is Int.fmod (they agree with
Int.ediv / Int.emod whenever the divisor is positive, which is the case on
every path exercised below).  Python exceptions are modelled by the error
side of Except: AffineException carries its numeric code and optional dump,
and the builtin IndexError / ZeroDivisionError / TypeError / NameError that
some inputs trigger get their own constructors.  While-loops whose
termination depends on the inputs are given explicit fuel; the fuel bounds
chosen below are generous enough that every terminating Python run is
reproduced exactly, and PyError.fuelOut models divergence.
-/

instance {ε α : Type} [DecidableEq ε] [DecidableEq α] : DecidableEq (Except ε α) := fun x y =>
  match x, y with
  | Except.ok a, Except.ok b =>
    if h : a = b then isTrue (congrArg Except.ok h)
    else isFalse (fun hc => h (Except.ok.inj hc))
  | Except.error a, Except.error b =>
    if h : a = b then isTrue (congrArg Except.error h)
    else isFalse (fun hc => h (Except.error.inj hc))
  | Except.ok _, Except.error _ => isFalse (fun hc => Except.noConfusion hc)
  | Except.error _, Except.ok _ => isFalse (fun hc => Except.noConfusion hc)

/-- One Euclidean division step, the dict built by modulo_formula in
cryptanalysis_affine.py: q = k * p + r with p the smaller operand. -/
structure ModuloStep where
  p : Int
  q : Int
  k : Int
  r : Int
deriving DecidableEq

/-- Outcomes of raising in the Python code.  affine is AffineException with
its code and optional dump (the division-step chain); the remaining
constructors are the builtin Python exceptions reachable in this code:
indexError for out-of-range list subscripts, zeroDivision for division by
zero, typeError for subscripting None, nameError for reading a variable that
was never assigned.  fuelOut models a diverging while-loop. -/
inductive PyError where
  | affine (code : Nat) (dump : Option (List ModuloStep))
  | indexError
  | zeroDivision
  | typeError
  | nameError
  | fuelOut
deriving DecidableEq

/-- modulo_formula(p, q) from cryptanalysis_affine.py: swap so the first
operand is the smaller, then record quotient and remainder.  Python raises
ZeroDivisionError when the divisor is 0. -/
def modulo_formula (p q : Int) : Except PyError ModuloStep :=
  if q < p then
    if q = 0 then Except.error PyError.zeroDivision
    else Except.ok { p := q, q := p, k := p.fdiv q, r := p.fmod q }
  else
    if p = 0 then Except.error PyError.zeroDivision
    else Except.ok { p := p, q := q, k := q.fdiv p, r := q.fmod p }

/-- The while-loop of fill_gcd_affine: starting from a first step, keep
appending modulo_formula(last.r, last.p) until a step has remainder 0.
fuel bounds the iteration count (the Python loop terminates on the inputs
the program uses, where the remainders strictly decrease). -/
def gcdChainFrom : Nat → ModuloStep → Except PyError (List ModuloStep)
  | 0, _ => Except.error PyError.fuelOut
  | fuel + 1, st =>
    if st.r = 0 then Except.ok [st]
    else
      match modulo_formula st.r st.p with
      | Except.error e => Except.error e
      | Except.ok next =>
        match gcdChainFrom fuel next with
        | Except.error e => Except.error e
        | Except.ok rest => Except.ok (st :: rest)

/-- The second-to-last element of a list, the meaning of the Python
subscript l[-2]; none exactly when the list has fewer than two elements,
which is when Python raises IndexError. -/
def penult : List ModuloStep → Option ModuloStep
  | a :: b :: rest =>
    match rest with
    | [] => some a
    | c :: rest2 => penult (b :: c :: rest2)
  | _ => none

/-- fill_gcd_affine(m, n) from cryptanalysis_affine.py.  Builds the division
chain, then checks the remainder of the second-to-last step, the Python
expression gcd_affine[-2], which raises IndexError when the chain has a
single step.  The fuel st0.r.natAbs + 1 covers every terminating run: after
the first step the remainders strictly decrease from st0.r. -/
def fill_gcd_affine (m n : Int) : Except PyError (List ModuloStep) :=
  if n ≤ m then Except.error (PyError.affine 2 none)
  else
    match modulo_formula m n with
    | Except.error e => Except.error e
    | Except.ok st0 =>
      match gcdChainFrom (st0.r.natAbs + 1) st0 with
      | Except.error e => Except.error e
      | Except.ok chain =>
        match penult chain with
        | none => Except.error PyError.indexError
        | some st2 =>
          if st2.r ≠ 1 then Except.error (PyError.affine 3 (some chain))
          else Except.ok chain

/-- The running Bezout identity maintained by the backtracking loop of
m_inverse_affine: the intended invariant is m * x + n * y = gcd. -/
structure BezoutIdentity where
  m : Int
  x : Int
  n : Int
  y : Int
deriving DecidableEq

/-- One iteration of the backtracking while-loop of m_inverse_affine, acting
on the popped step st.  Steps with remainder 0 are skipped; the first real
step initialises the identity with the negated quotient; later steps fold
the negated quotient in and swap (m, x) with (n, y). -/
def backtrackStep (bz : Option BezoutIdentity) (st : ModuloStep) : Option BezoutIdentity :=
  if st.r = 0 then bz
  else
    match bz with
    | none => some { m := st.p, x := -st.k, n := st.q, y := 1 }
    | some b =>
      some { m := b.n, x := b.y + b.x * (-st.k), n := st.q, y := b.x }

/-- The whole backtracking loop: the Python code pops from the end of the
chain, so the loop is a left fold over the reversed chain. -/
def runBack (chain : List ModuloStep) : Option BezoutIdentity :=
  chain.reverse.foldl backtrackStep none

/-- m_inverse_affine(m, n) from cryptanalysis_affine.py.  After the
backtracking loop, a negative x is normalised by adding n.  If the loop
never initialised the identity, Python would subscript None (TypeError). -/
def m_inverse_affine (m n : Int) : Except PyError Int :=
  if n ≤ m then Except.error (PyError.affine 4 none)
  else
    match fill_gcd_affine m n with
    | Except.error e => Except.error e
    | Except.ok chain =>
      match runBack chain with
      | none => Except.error PyError.typeError
      | some bz => Except.ok (if bz.x < 0 then n + bz.x else bz.x)

/-- decrypt_affine(m_inverse, n, b, C) from brute_force_affine.py lines
16-18 (identical in exhaustive_key_affine.py lines 25-27):
P = m_inverse * (C - b) mod n. -/
def decrypt_affine (m_inverse n b C : Int) : Int :=
  (m_inverse * (C - b)).fmod n

/-- The acceptance test of both searchers at multiplier candidate i and
shift candidate j: the two decrypted header bytes must be 0xFF and 0xD8. -/
def hitB (i j : Nat) (c0 c1 : Int) : Prop :=
  decrypt_affine (i : Int) 256 (j : Int) c0 = 255 ∧
  decrypt_affine (i : Int) 256 (j : Int) c1 = 216

instance (i j : Nat) (c0 c1 : Int) : Decidable (hitB i j c0 c1) := by
  unfold hitB
  infer_instance

/-- Inner loop of brute_force (and of exhaustive_key): j runs over fuel
consecutive values starting at j0; Python uses range(0, 256). -/
def bfInner (i : Nat) (c0 c1 : Int) : Nat → Nat → Option (Int × Int)
  | _, 0 => none
  | j, fuel + 1 =>
    if hitB i j c0 c1 then some ((i : Int), (j : Int))
    else bfInner i c0 c1 (j + 1) fuel

/-- Outer loop of brute_force: i runs over fuel consecutive values starting
at i0; Python uses range(1, 256). -/
def bfOuter (c0 c1 : Int) : Nat → Nat → Option (Int × Int)
  | _, 0 => none
  | i, fuel + 1 =>
    match bfInner i c0 c1 0 256 with
    | some r => some r
    | none => bfOuter c0 c1 (i + 1) fuel

/-- brute_force(ciphertext) from brute_force_affine.py.  Only the first two
bytes are consulted; Python raises IndexError on shorter inputs (no claim
concerns those), here mapped to the not-found sentinel. -/
def brute_force (ciphertext : List Int) : Option (Int × Int) :=
  match ciphertext with
  | c0 :: c1 :: _ => bfOuter c0 c1 1 255
  | _ => none

/-- The recursive gcd of exhaustive_key_affine.py, with fuel making the
recursion structural.  Swap steps keep the sum a + b, every other step
strictly decreases it, so 2 * (a + b) + 2 fuel covers every run. -/
def gcdFuel : Nat → Nat → Nat → Option Nat
  | 0, _, _ => none
  | fuel + 1, a, b =>
    if b < a then gcdFuel fuel b a
    else if a = 0 then some b
    else gcdFuel fuel a (b % a)

namespace exhaustive_key_affine

/-- gcd(a, b) from exhaustive_key_affine.py lines 16-23 (namespaced because
Mathlib already has a global gcd). -/
def gcd (a b : Nat) : Nat :=
  (gcdFuel (2 * (a + b) + 2) a b).getD 0

end exhaustive_key_affine

/-- Outer loop of exhaustive_key: like bfOuter but multiplier candidates
not coprime with 256 are skipped. -/
def ekOuter (c0 c1 : Int) : Nat → Nat → Option (Int × Int)
  | _, 0 => none
  | i, fuel + 1 =>
    if exhaustive_key_affine.gcd i 256 ≠ 1 then ekOuter c0 c1 (i + 1) fuel
    else
      match bfInner i c0 c1 0 256 with
      | some r => some r
      | none => ekOuter c0 c1 (i + 1) fuel

/-- exhaustive_key(ciphertext) from exhaustive_key_affine.py. -/
def exhaustive_key (ciphertext : List Int) : Option (Int × Int) :=
  match ciphertext with
  | c0 :: c1 :: _ => ekOuter c0 c1 1 255
  | _ => none

/-- The dict returned by analyze_known_plaintext. -/
structure AnalyzeResult where
  m : Int
  m_inv : Int
  b : Int
deriving DecidableEq

/-- The body of analyze_known_plaintext after the two sample pairs have been
selected and ordered (first_p is the larger plaintext byte).  Mirrors the
try/except of cryptanalysis_affine.py lines 190-243: situation 1 when the
inverse of the plaintext difference exists; on AffineException code 3 the
dump decides between situation 2.2 (reduction) and 2.1 (code 7, no
solution).  An AffineException with another code leaves the Python variable
m unassigned, so the later read of m raises NameError. -/
def analyzeCore (first_p first_c second_p second_c : Int) : Except PyError AnalyzeResult :=
  let p := first_p - second_p
  let c := first_c - second_c
  let n : Int := 256
  let mres : Except PyError Int :=
    match m_inverse_affine p n with
    | Except.ok p_inverse => Except.ok ((c * p_inverse).fmod n)
    | Except.error (PyError.affine 3 dump) =>
      match dump with
      | some d =>
        match d.getLast? with
        | some last =>
          if c.fmod last.p = 0 then
            match m_inverse_affine (p.fdiv last.p) (n.fdiv last.p) with
            | Except.ok pinv2 =>
              Except.ok (((c.fdiv last.p) * pinv2).fmod (n.fdiv last.p))
            | Except.error e => Except.error e
          else Except.error (PyError.affine 7 none)
        | none => Except.error PyError.indexError
      | none => Except.error PyError.typeError
    | Except.error (PyError.affine _ _) => Except.error PyError.nameError
    | Except.error e => Except.error e
  match mres with
  | Except.error e => Except.error e
  | Except.ok m =>
    match m_inverse_affine m 256 with
    | Except.error e => Except.error e
    | Except.ok minv =>
      Except.ok { m := m, m_inv := minv, b := (first_c - first_p * m).fmod n }

/-- analyze_known_plaintext from cryptanalysis_affine.py.  The two
random.randint results are passed in as pick1 and pick2.  The Python code
pops the selected index from both caller-supplied lists, so the function
returns, besides the result, the contents the two lists have after the
call.  Swaps the two samples when the first plaintext byte is smaller. -/
def analyze_known_plaintext_full (kp kc : List Int) (pick1 pick2 : Nat) :
    Except PyError AnalyzeResult × List Int × List Int :=
  if kp.length ≠ kc.length then (Except.error (PyError.affine 5 none), kp, kc)
  else if kp.length < 2 then (Except.error (PyError.affine 6 none), kp, kc)
  else
    match kp[pick1]?, kc[pick1]? with
    | some fp, some fc =>
      let kp1 := kp.eraseIdx pick1
      let kc1 := kc.eraseIdx pick1
      match kp1[pick2]?, kc1[pick2]? with
      | some sp, some sc =>
        let kp2 := kp1.eraseIdx pick2
        let kc2 := kc1.eraseIdx pick2
        if fp < sp then (analyzeCore sp sc fp fc, kp2, kc2)
        else (analyzeCore fp fc sp sc, kp2, kc2)
      | _, _ => (Except.error PyError.indexError, kp1, kc1)
    | _, _ => (Except.error PyError.indexError, kp, kc)

/-- The value analyze_known_plaintext returns (or the exception it raises). -/
def analyze_known_plaintext (kp kc : List Int) (pick1 pick2 : Nat) :
    Except PyError AnalyzeResult :=
  (analyze_known_plaintext_full kp kc pick1 pick2).1

/-- Wellformedness of one division step, as produced by modulo_formula on a
positive smaller operand: the remainder is reduced and the book equation
q = p * k + r holds. -/
def wfStep (st : ModuloStep) : Prop :=
  0 ≤ st.r ∧ st.r < st.p ∧ st.p ≤ st.q ∧ st.q = st.p * st.k + st.r

/-- Shape of the chains built by the fill_gcd_affine loop: every step is
wellformed, consecutive steps are linked by p2 = r1 and q2 = p1, and exactly
the final step has remainder 0. -/
inductive ChainWF : List ModuloStep → Prop where
  | single (st : ModuloStep) (hw : wfStep st) (hr : st.r = 0) : ChainWF [st]
  | cons (st st2 : ModuloStep) (rest : List ModuloStep) (hw : wfStep st) (hr : st.r ≠ 0)
      (hp : st2.p = st.r) (hq : st2.q = st.p) (htl : ChainWF (st2 :: rest)) :
      ChainWF (st :: st2 :: rest)

/-- The p field of the final step of a chain; for the chains built by
fill_gcd_affine this is the gcd of the two starting operands. -/
def lastP (l : List ModuloStep) : Int :=
  match l.getLast? with
  | some st => st.p
  | none => 0

theorem modulo_formula_eq (a b : Int) (h1 : 0 < a) (h2 : a ≤ b) :
    modulo_formula a b = Except.ok ⟨a, b, b.fdiv a, b.fmod a⟩ := by
  unfold modulo_formula
  rw [if_neg (by omega), if_neg (by omega)]

theorem wfStep_mk (a b : Int) (h1 : 0 < a) (h2 : a ≤ b) :
    wfStep ⟨a, b, b.fdiv a, b.fmod a⟩ := by
  have hid := Int.fmod_add_fdiv b a
  refine ⟨Int.fmod_nonneg' b h1, Int.fmod_lt_of_pos b h1, h2, ?_⟩
  dsimp only
  linarith

theorem gcdChainFrom_wf :
    ∀ (fuel : Nat) (st : ModuloStep) (chain : List ModuloStep), wfStep st →
      gcdChainFrom fuel st = Except.ok chain →
      ChainWF chain ∧ ∃ rest, chain = st :: rest := by
  intro fuel
  induction fuel with
  | zero =>
    intro st chain hw h
    exact absurd h (by simp [gcdChainFrom])
  | succ fuel ih =>
    intro st chain hw h
    rw [gcdChainFrom] at h
    by_cases hr : st.r = 0
    · rw [if_pos hr] at h
      simp only [Except.ok.injEq] at h
      subst h
      exact ⟨ChainWF.single st hw hr, [], rfl⟩
    · rw [if_neg hr] at h
      have hrpos : (0 : Int) < st.r := by
        rcases hw with ⟨hw1, _, _, _⟩
        omega
      have hrle : st.r ≤ st.p := le_of_lt hw.2.1
      rw [modulo_formula_eq st.r st.p hrpos hrle] at h
      dsimp only at h
      cases hrec : gcdChainFrom fuel ⟨st.r, st.p, st.p.fdiv st.r, st.p.fmod st.r⟩ with
      | error e =>
        rw [hrec] at h
        exact absurd h (by simp)
      | ok rest =>
        rw [hrec] at h
        simp only [Except.ok.injEq] at h
        subst h
        have hwnext := wfStep_mk st.r st.p hrpos hrle
        obtain ⟨hcwf, rest2, hrest⟩ := ih _ _ hwnext hrec
        subst hrest
        refine ⟨ChainWF.cons st _ rest2 hw hr rfl rfl hcwf, _, rfl⟩

theorem chainWF_head_wf {st : ModuloStep} {rest : List ModuloStep}
    (h : ChainWF (st :: rest)) : wfStep st := by
  cases h with
  | single _ hw _ => exact hw
  | cons _ _ _ hw _ _ _ _ => exact hw

theorem chainWF_tail {st : ModuloStep} {rest : List ModuloStep}
    (h : ChainWF (st :: rest)) : rest = [] ∨ ChainWF rest := by
  cases h with
  | single _ _ _ => exact Or.inl rfl
  | cons _ _ _ _ _ _ _ htl => exact Or.inr htl

theorem lastP_cons_cons (st st2 : ModuloStep) (rest : List ModuloStep) :
    lastP (st :: st2 :: rest) = lastP (st2 :: rest) := by
  unfold lastP
  rw [List.getLast?_cons_cons]

theorem lastP_pos {l : List ModuloStep} (h : ChainWF l) : 1 ≤ lastP l := by
  induction h with
  | single st hw hr =>
    have : lastP [st] = st.p := by
      unfold lastP
      rfl
    rw [this]
    rcases hw with ⟨hw1, hw2, _, _⟩
    omega
  | cons st st2 rest hw hr hp hq htl ih =>
    rw [lastP_cons_cons]
    exact ih

theorem chainWF_suffix :
    ∀ (c : List ModuloStep), ChainWF c → ∀ l, l <:+ c → l = [] ∨ ChainWF l := by
  intro c
  induction c with
  | nil =>
    intro _ l hl
    exact Or.inl (List.suffix_nil.mp hl)
  | cons st rest ih =>
    intro hc l hl
    rcases List.suffix_cons_iff.mp hl with heq | hsuf
    · exact Or.inr (heq ▸ hc)
    · rcases chainWF_tail hc with hnil | htl
      · subst hnil
        exact Or.inl (List.suffix_nil.mp hsuf)
      · exact ih htl l hsuf

theorem lastP_suffix :
    ∀ (c l : List ModuloStep), l <:+ c → l ≠ [] → lastP l = lastP c := by
  intro c l hl hne
  obtain ⟨pre, hpre⟩ := hl
  subst hpre
  unfold lastP
  rw [List.getLast?_append_of_ne_nil pre hne]

theorem penult_r_eq :
    ∀ (l : List ModuloStep), ChainWF l → ∀ st2, penult l = some st2 → st2.r = lastP l := by
  intro l h
  induction h with
  | single st hw hr =>
    intro st2 hpen
    exact absurd hpen (by simp [penult])
  | cons st st2 rest hw hr hp hq htl ih =>
    intro sta hpen
    cases rest with
    | nil =>
      have hsta : sta = st := by
        have : penult [st, st2] = some st := rfl
        rw [this] at hpen
        exact (Option.some.inj hpen).symm
      subst hsta
      rw [lastP_cons_cons]
      have hl2 : lastP [st2] = st2.p := rfl
      rw [hl2, hp]
    | cons st3 rest3 =>
      have hstep : penult (st :: st2 :: st3 :: rest3) = penult (st2 :: st3 :: rest3) := rfl
      rw [hstep] at hpen
      rw [lastP_cons_cons]
      exact ih sta hpen

theorem runBack_nil : runBack [] = none := rfl

theorem runBack_cons (st : ModuloStep) (rest : List ModuloStep) :
    runBack (st :: rest) = backtrackStep (runBack rest) st := by
  unfold runBack
  rw [List.reverse_cons, List.foldl_append]
  rfl

theorem step_k_pos {st : ModuloStep} (hw : wfStep st) (hr1 : 1 ≤ st.r) :
    1 ≤ st.k ∧ 2 ≤ st.p := by
  obtain ⟨h1, h2, h3, h4⟩ := hw
  constructor
  · by_contra hcon
    push_neg at hcon
    have hk0 : st.k ≤ 0 := by omega
    have hprod : st.p * st.k ≤ 0 := mul_nonpos_iff.mpr (Or.inl ⟨by omega, hk0⟩)
    linarith
  · omega

theorem runBack_spec :
    ∀ (l : List ModuloStep), ChainWF l →
      ∀ st rest, l = st :: rest → rest ≠ [] →
      ∃ bz, runBack l = some bz ∧ bz.m = st.p ∧ bz.n = st.q ∧
        bz.m * bz.x + bz.n * bz.y = lastP l ∧
        -bz.n ≤ 2 * bz.x ∧ 2 * bz.x ≤ bz.n ∧ -bz.m ≤ 2 * bz.y ∧ 2 * bz.y ≤ bz.m := by
  intro l hwf
  induction hwf with
  | single st hw hr =>
    intro st0 rest0 h1 h2
    have : rest0 = [] := (List.cons.inj h1).2.symm
    exact absurd this h2
  | cons st st2 rest hw hr hp hq htl ih =>
    intro st0 rest0 h1 h2
    obtain ⟨he1, he2⟩ := List.cons.inj h1
    subst he1
    subst he2
    have hw2 : wfStep st2 := chainWF_head_wf htl
    have hr1 : 1 ≤ st.r := by
      obtain ⟨ha, hb, _, _⟩ := hw2
      omega
    obtain ⟨hk1, hp2⟩ := step_k_pos hw hr1
    obtain ⟨hwa, hwb, hwc, hwd⟩ := hw
    cases rest with
    | nil =>
      have hr2 : st2.r = 0 := by
        cases htl with
        | single _ _ hr0 => exact hr0
      refine ⟨⟨st.p, -st.k, st.q, 1⟩, ?_, rfl, rfl, ?_, ?_, ?_, ?_, ?_⟩
      · rw [runBack_cons, runBack_cons, runBack_nil]
        have e1 : backtrackStep none st2 = none := by
          unfold backtrackStep
          rw [if_pos hr2]
        rw [e1]
        unfold backtrackStep
        rw [if_neg hr]
      · rw [lastP_cons_cons]
        have hl2 : lastP [st2] = st2.p := rfl
        rw [hl2, hp]
        dsimp only
        linarith
      · dsimp only
        have hmul : 2 * st.k ≤ st.p * st.k :=
          mul_le_mul_of_nonneg_right hp2 (by omega)
        linarith
      · dsimp only
        linarith
      · dsimp only
        linarith
      · dsimp only
        linarith
    | cons st3 rest3 =>
      obtain ⟨bz, hrb, hbm, hbn, hid, hx1, hx2, hy1, hy2⟩ :=
        ih st2 (st3 :: rest3) rfl (by simp)
      have hbm2 : bz.m = st.r := by rw [hbm, hp]
      have hbn2 : bz.n = st.p := by rw [hbn, hq]
      have hqrw : st.q = bz.n * st.k + bz.m := by rw [hbn2, hbm2]; exact hwd
      refine ⟨⟨bz.n, bz.y + bz.x * (-st.k), st.q, bz.x⟩, ?_, ?_, rfl, ?_, ?_, ?_, ?_, ?_⟩
      · rw [runBack_cons, hrb]
        unfold backtrackStep
        rw [if_neg hr]
      · dsimp only
        exact hbn2
      · rw [lastP_cons_cons]
        dsimp only
        rw [hqrw, ← hid]
        ring
      · dsimp only
        have hmulU : 2 * bz.x * st.k ≤ bz.n * st.k :=
          mul_le_mul_of_nonneg_right hx2 (by omega)
        have hexp : 2 * (bz.y + bz.x * -st.k) = 2 * bz.y - 2 * bz.x * st.k := by ring
        rw [hexp]
        linarith
      · dsimp only
        have hmulL : -bz.n * st.k ≤ 2 * bz.x * st.k :=
          mul_le_mul_of_nonneg_right hx1 (by omega)
        have hneg : -bz.n * st.k = -(bz.n * st.k) := by ring
        have hexp : 2 * (bz.y + bz.x * -st.k) = 2 * bz.y - 2 * bz.x * st.k := by ring
        rw [hexp]
        linarith
      · dsimp only
        linarith
      · dsimp only
        linarith

theorem fill_gcd_ok_inv (m n : Int) (h0 : 0 < m) (h1 : m < n) (chain : List ModuloStep)
    (hok : fill_gcd_affine m n = Except.ok chain) :
    ChainWF chain ∧
    (∃ rest, rest ≠ [] ∧ chain = (⟨m, n, n.fdiv m, n.fmod m⟩ : ModuloStep) :: rest) ∧
    lastP chain = 1 := by
  unfold fill_gcd_affine at hok
  rw [if_neg (by omega)] at hok
  rw [modulo_formula_eq m n h0 (le_of_lt h1)] at hok
  dsimp only at hok
  cases hchain : gcdChainFrom ((n.fmod m).natAbs + 1) ⟨m, n, n.fdiv m, n.fmod m⟩ with
  | error e =>
    rw [hchain] at hok
    exact absurd hok (by simp)
  | ok chain2 =>
    rw [hchain] at hok
    dsimp only at hok
    cases hpen : penult chain2 with
    | none =>
      rw [hpen] at hok
      exact absurd hok (by simp)
    | some st2 =>
      rw [hpen] at hok
      dsimp only at hok
      by_cases hrr : st2.r ≠ 1
      · rw [if_pos hrr] at hok
        exact absurd hok (by simp)
      · rw [if_neg hrr] at hok
        simp only [Except.ok.injEq] at hok
        subst hok
        push_neg at hrr
        obtain ⟨hcwf, rest, hhead⟩ :=
          gcdChainFrom_wf _ _ _ (wfStep_mk m n h0 (le_of_lt h1)) hchain
        refine ⟨hcwf, ⟨rest, ?_, hhead⟩, ?_⟩
        · intro hrnil
          rw [hhead, hrnil] at hpen
          exact absurd hpen (by simp [penult])
        · have := penult_r_eq chain2 hcwf st2 hpen
          rw [← this, hrr]

/-- C9: throughout the backtracking loop of m_inverse_affine(m, n) on
inputs 0 < m < n whose chain construction succeeds (exactly the coprime
inputs on which the code does not crash), the running BezoutIdentity
satisfies m * x + n * y = gcd(m, n) = 1 after every processed step (the
state of the pop loop after any number of iterations is runBack of the
corresponding suffix of the chain), and at the end x is normalised into
[0, n) by adding n exactly when it is negative. -/
theorem C9_bezout_invariant (m n : Int) (chain : List ModuloStep)
    (h0 : 0 < m) (h1 : m < n) (hok : fill_gcd_affine m n = Except.ok chain) :
    Int.gcd m n = 1 ∧
    (∀ l, l <:+ chain → ∀ bz, runBack l = some bz →
      bz.m * bz.x + bz.n * bz.y = 1) ∧
    (∃ bz x, runBack chain = some bz ∧
      m_inverse_affine m n = Except.ok x ∧
      0 ≤ x ∧ x < n ∧ (bz.x < 0 → x = n + bz.x) ∧ (0 ≤ bz.x → x = bz.x)) := by
  obtain ⟨hcwf, ⟨rest, hrne, hhead⟩, hlast⟩ := fill_gcd_ok_inv m n h0 h1 chain hok
  obtain ⟨bz, hrb, hbm, hbn, hid, hx1, hx2, hy1, hy2⟩ :=
    runBack_spec chain hcwf _ rest hhead hrne
  have hbmm : bz.m = m := hbm
  have hbnn : bz.n = n := hbn
  have hid1 : m * bz.x + n * bz.y = 1 := by
    rw [← hbmm, ← hbnn, hid, hlast]
  have hx1n : -n ≤ 2 * bz.x := by rw [← hbnn]; exact hx1
  have hx2n : 2 * bz.x ≤ n := by rw [← hbnn]; exact hx2
  have hn2 : (2 : Int) ≤ n := by omega
  refine ⟨?_, ?_, ?_⟩
  · exact Int.gcd_eq_one_iff_coprime.mpr ⟨bz.x, bz.y, by linear_combination hid1⟩
  · intro l hsuf bz2 hbz2
    rcases chainWF_suffix chain hcwf l hsuf with hnil | hlwf
    · rw [hnil, runBack_nil] at hbz2
      exact absurd hbz2 (by simp)
    · cases l with
      | nil => cases hlwf
      | cons sta resta =>
        cases resta with
        | nil =>
          have hr0 : sta.r = 0 := by
            cases hlwf with
            | single _ _ hr0 => exact hr0
          rw [runBack_cons, runBack_nil] at hbz2
          unfold backtrackStep at hbz2
          rw [if_pos hr0] at hbz2
          exact absurd hbz2 (by simp)
        | cons stb restb =>
          obtain ⟨bz3, hrb3, _, _, hid3, _, _, _, _⟩ :=
            runBack_spec _ hlwf sta (stb :: restb) rfl (by simp)
          rw [hrb3] at hbz2
          have hbz23 : bz2 = bz3 := (Option.some.inj hbz2).symm
          subst hbz23
          rw [hid3, lastP_suffix chain _ hsuf (by simp), hlast]
  · refine ⟨bz, if bz.x < 0 then n + bz.x else bz.x, hrb, ?_, ?_, ?_, ?_, ?_⟩
    · unfold m_inverse_affine
      rw [if_neg (by omega), hok]
      dsimp only
      rw [hrb]
    · split_ifs with hxneg <;> omega
    · split_ifs with hxneg <;> omega
    · intro h
      rw [if_pos h]
    · intro h
      rw [if_neg (by omega)]

/-- Witness for C9 at m = 3, n = 256: the chain is two steps and the final
identity is 3 * (-85) + 256 * 1 = 1, normalised to the inverse 171. -/
theorem C9_bezout_invariant_witness :
    Int.gcd 3 256 = 1 ∧
    (∀ l, l <:+ [(⟨3, 256, 85, 1⟩ : ModuloStep), ⟨1, 3, 3, 0⟩] → ∀ bz, runBack l = some bz →
      bz.m * bz.x + bz.n * bz.y = 1) ∧
    (∃ bz x, runBack [(⟨3, 256, 85, 1⟩ : ModuloStep), ⟨1, 3, 3, 0⟩] = some bz ∧
      m_inverse_affine 3 256 = Except.ok x ∧
      0 ≤ x ∧ x < 256 ∧ (bz.x < 0 → x = 256 + bz.x) ∧ (0 ≤ bz.x → x = bz.x)) :=
  C9_bezout_invariant 3 256 [⟨3, 256, 85, 1⟩, ⟨1, 3, 3, 0⟩]
    (by decide) (by decide) (by decide)

theorem bfInner_none_iff :
    ∀ (fuel j0 : Nat) (i : Nat) (c0 c1 : Int),
      bfInner i c0 c1 j0 fuel = none ↔ ∀ j, j0 ≤ j → j < j0 + fuel → ¬ hitB i j c0 c1 := by
  intro fuel
  induction fuel with
  | zero =>
    intro j0 i c0 c1
    constructor
    · intro _ j hj1 hj2 _
      omega
    · intro _
      rfl
  | succ fuel ih =>
    intro j0 i c0 c1
    simp only [bfInner]
    by_cases hh : hitB i j0 c0 c1
    · rw [if_pos hh]
      constructor
      · intro h
        exact absurd h (by simp)
      · intro hall
        exact absurd hh (hall j0 (le_refl j0) (by omega))
    · rw [if_neg hh]
      rw [ih (j0 + 1) i c0 c1]
      constructor
      · intro h j hj1 hj2
        by_cases hj0 : j = j0
        · subst hj0
          exact hh
        · exact h j (by omega) (by omega)
      · intro h j hj1 hj2
        exact h j (by omega) (by omega)

theorem bfInner_some_spec :
    ∀ (fuel j0 : Nat) (i : Nat) (c0 c1 : Int) (r : Int × Int),
      bfInner i c0 c1 j0 fuel = some r →
      ∃ j, j0 ≤ j ∧ j < j0 + fuel ∧ hitB i j c0 c1 ∧
        (∀ k2, j0 ≤ k2 → k2 < j → ¬ hitB i k2 c0 c1) ∧ r = ((i : Int), (j : Int)) := by
  intro fuel
  induction fuel with
  | zero =>
    intro j0 i c0 c1 r h
    exact absurd h (by simp [bfInner])
  | succ fuel ih =>
    intro j0 i c0 c1 r h
    simp only [bfInner] at h
    by_cases hh : hitB i j0 c0 c1
    · rw [if_pos hh] at h
      refine ⟨j0, le_refl j0, by omega, hh, ?_, (Option.some.inj h).symm⟩
      intro k2 h1 h2
      omega
    · rw [if_neg hh] at h
      obtain ⟨j, hj1, hj2, hjh, hmin, hr⟩ := ih (j0 + 1) i c0 c1 r h
      refine ⟨j, by omega, by omega, hjh, ?_, hr⟩
      intro k2 h1 h2
      by_cases hk0 : k2 = j0
      · subst hk0
        exact hh
      · exact hmin k2 (by omega) h2

theorem bfOuter_none_iff :
    ∀ (fuel i0 : Nat) (c0 c1 : Int),
      bfOuter c0 c1 i0 fuel = none ↔
      ∀ i, i0 ≤ i → i < i0 + fuel → ∀ j, j < 256 → ¬ hitB i j c0 c1 := by
  intro fuel
  induction fuel with
  | zero =>
    intro i0 c0 c1
    constructor
    · intro _ i h1 h2 j hj _
      omega
    · intro _
      rfl
  | succ fuel ih =>
    intro i0 c0 c1
    simp only [bfOuter]
    cases hin : bfInner i0 c0 c1 0 256 with
    | some r =>
      constructor
      · intro h
        exact absurd h (by simp)
      · intro hall
        obtain ⟨j, _, hj2, hjh, _, _⟩ := bfInner_some_spec 256 0 i0 c0 c1 r hin
        exact absurd hjh (hall i0 (le_refl _) (by omega) j (by omega))
    | none =>
      rw [ih]
      constructor
      · intro h i h1 h2 j hj
        by_cases hi0 : i = i0
        · subst hi0
          exact (bfInner_none_iff 256 0 i c0 c1).mp hin j (by omega) (by omega)
        · exact h i (by omega) (by omega) j hj
      · intro h i h1 h2 j hj
        exact h i (by omega) (by omega) j hj

theorem bfOuter_some_spec :
    ∀ (fuel i0 : Nat) (c0 c1 : Int) (r : Int × Int),
      bfOuter c0 c1 i0 fuel = some r →
      ∃ i j : Nat, i0 ≤ i ∧ i < i0 + fuel ∧ j < 256 ∧ hitB i j c0 c1 ∧
        (∀ i2, i0 ≤ i2 → i2 < i → ∀ j2, j2 < 256 → ¬ hitB i2 j2 c0 c1) ∧
        (∀ j2, j2 < j → ¬ hitB i j2 c0 c1) ∧ r = ((i : Int), (j : Int)) := by
  intro fuel
  induction fuel with
  | zero =>
    intro i0 c0 c1 r h
    exact absurd h (by simp [bfOuter])
  | succ fuel ih =>
    intro i0 c0 c1 r h
    simp only [bfOuter] at h
    cases hin : bfInner i0 c0 c1 0 256 with
    | some r2 =>
      rw [hin] at h
      dsimp only at h
      have hr : r2 = r := Option.some.inj h
      subst hr
      obtain ⟨j, hj0, hj2, hjh, hmin, hrq⟩ := bfInner_some_spec 256 0 i0 c0 c1 r2 hin
      refine ⟨i0, j, le_refl _, by omega, by omega, hjh, ?_, ?_, hrq⟩
      · intro i2 h1 h2 j2 hj2b _
        omega
      · intro j2 hj2b
        exact hmin j2 (by omega) hj2b
    | none =>
      rw [hin] at h
      dsimp only at h
      obtain ⟨i, j, h1, h2, h3, h4, h5, h6, h7⟩ := ih (i0 + 1) c0 c1 r h
      refine ⟨i, j, by omega, by omega, h3, h4, ?_, h6, h7⟩
      intro i2 hi1 hi2 j2 hj2
      by_cases hi0 : i2 = i0
      · subst hi0
        exact (bfInner_none_iff 256 0 i2 c0 c1).mp hin j2 (by omega) (by omega)
      · exact h5 i2 (by omega) hi2 j2 hj2

theorem ekOuter_none_iff :
    ∀ (fuel i0 : Nat) (c0 c1 : Int),
      ekOuter c0 c1 i0 fuel = none ↔
      ∀ i, i0 ≤ i → i < i0 + fuel → exhaustive_key_affine.gcd i 256 = 1 →
        ∀ j, j < 256 → ¬ hitB i j c0 c1 := by
  intro fuel
  induction fuel with
  | zero =>
    intro i0 c0 c1
    constructor
    · intro _ i h1 h2 _ j hj _
      omega
    · intro _
      rfl
  | succ fuel ih =>
    intro i0 c0 c1
    simp only [ekOuter]
    by_cases hg : exhaustive_key_affine.gcd i0 256 ≠ 1
    · rw [if_pos hg, ih]
      constructor
      · intro h i h1 h2 hgi j hj
        by_cases hi0 : i = i0
        · subst hi0
          exact absurd hgi hg
        · exact h i (by omega) (by omega) hgi j hj
      · intro h i h1 h2 hgi j hj
        exact h i (by omega) (by omega) hgi j hj
    · rw [if_neg hg]
      push_neg at hg
      cases hin : bfInner i0 c0 c1 0 256 with
      | some r =>
        constructor
        · intro h
          exact absurd h (by simp)
        · intro hall
          obtain ⟨j, _, hj2, hjh, _, _⟩ := bfInner_some_spec 256 0 i0 c0 c1 r hin
          exact absurd hjh (hall i0 (le_refl _) (by omega) hg j (by omega))
      | none =>
        rw [ih]
        constructor
        · intro h i h1 h2 hgi j hj
          by_cases hi0 : i = i0
          · subst hi0
            exact (bfInner_none_iff 256 0 i c0 c1).mp hin j (by omega) (by omega)
          · exact h i (by omega) (by omega) hgi j hj
        · intro h i h1 h2 hgi j hj
          exact h i (by omega) (by omega) hgi j hj

theorem ekOuter_some_spec :
    ∀ (fuel i0 : Nat) (c0 c1 : Int) (r : Int × Int),
      ekOuter c0 c1 i0 fuel = some r →
      ∃ i j : Nat, i0 ≤ i ∧ i < i0 + fuel ∧ exhaustive_key_affine.gcd i 256 = 1 ∧
        j < 256 ∧ hitB i j c0 c1 ∧
        (∀ i2, i0 ≤ i2 → i2 < i → exhaustive_key_affine.gcd i2 256 = 1 →
          ∀ j2, j2 < 256 → ¬ hitB i2 j2 c0 c1) ∧
        (∀ j2, j2 < j → ¬ hitB i j2 c0 c1) ∧ r = ((i : Int), (j : Int)) := by
  intro fuel
  induction fuel with
  | zero =>
    intro i0 c0 c1 r h
    exact absurd h (by simp [ekOuter])
  | succ fuel ih =>
    intro i0 c0 c1 r h
    simp only [ekOuter] at h
    by_cases hg : exhaustive_key_affine.gcd i0 256 ≠ 1
    · rw [if_pos hg] at h
      obtain ⟨i, j, h1, h2, h3, h4, h5, h6, h7, h8⟩ := ih (i0 + 1) c0 c1 r h
      refine ⟨i, j, by omega, by omega, h3, h4, h5, ?_, h7, h8⟩
      intro i2 hi1 hi2 hgi j2 hj2
      by_cases hi0 : i2 = i0
      · subst hi0
        exact absurd hgi hg
      · exact h6 i2 (by omega) hi2 hgi j2 hj2
    · rw [if_neg hg] at h
      push_neg at hg
      cases hin : bfInner i0 c0 c1 0 256 with
      | some r2 =>
        rw [hin] at h
        dsimp only at h
        have hr : r2 = r := Option.some.inj h
        subst hr
        obtain ⟨j, hj0, hj2, hjh, hmin, hrq⟩ := bfInner_some_spec 256 0 i0 c0 c1 r2 hin
        refine ⟨i0, j, le_refl _, by omega, hg, by omega, hjh, ?_, ?_, hrq⟩
        · intro i2 h1 h2 _ j2 hj2b _
          omega
        · intro j2 hj2b
          exact hmin j2 (by omega) hj2b
      | none =>
        rw [hin] at h
        dsimp only at h
        obtain ⟨i, j, h1, h2, h3, h4, h5, h6, h7, h8⟩ := ih (i0 + 1) c0 c1 r h
        refine ⟨i, j, by omega, by omega, h3, h4, h5, ?_, h7, h8⟩
        intro i2 hi1 hi2 hgi j2 hj2
        by_cases hi0 : i2 = i0
        · subst hi0
          exact (bfInner_none_iff 256 0 i2 c0 c1).mp hin j2 (by omega) (by omega)
        · exact h6 i2 (by omega) hi2 hgi j2 hj2

theorem decrypt_affine_even (i b C : Int) (h : i % 2 = 0) :
    decrypt_affine i 256 b C % 2 = 0 := by
  unfold decrypt_affine
  rw [Int.fmod_eq_emod _ (by norm_num)]
  rw [Int.emod_emod_of_dvd _ (by norm_num : (2 : Int) ∣ 256)]
  rw [Int.mul_emod, h]
  simp

theorem hitB_odd (i j : Nat) (c0 c1 : Int) (h : hitB i j c0 c1) : i % 2 = 1 := by
  by_contra hcon
  have h2 : (i : Int) % 2 = 0 := by omega
  have he := decrypt_affine_even (i : Int) (j : Int) c0 h2
  rw [h.1] at he
  norm_num at he

set_option maxRecDepth 8000 in
theorem ek_gcd_odd :
    ∀ i : Nat, i < 256 → (exhaustive_key_affine.gcd i 256 = 1 ↔ i % 2 = 1) := by decide

theorem hitB_4_143_unique (i j : Nat) (h1 : 1 ≤ i) (h2 : i ≤ 255) (h3 : j ≤ 255)
    (hh : hitB i j 4 143) : i = 171 ∧ j = 7 := by
  obtain ⟨ha, hb⟩ := hh
  unfold decrypt_affine at ha hb
  rw [Int.fmod_eq_emod _ (by norm_num)] at ha hb
  have m1 : (i : Int) * (4 - (j : Int)) ≡ 255 [ZMOD 256] := by
    show ((i : Int) * (4 - (j : Int))) % 256 = (255 : Int) % 256
    rw [ha]
    decide
  have m2 : (i : Int) * (143 - (j : Int)) ≡ 216 [ZMOD 256] := by
    show ((i : Int) * (143 - (j : Int))) % 256 = (216 : Int) % 256
    rw [hb]
    decide
  have msub := m2.sub m1
  have heq : (i : Int) * (143 - (j : Int)) - (i : Int) * (4 - (j : Int)) = 139 * i := by
    ring
  rw [heq] at msub
  have h39 : (216 : Int) - 255 = -39 := by norm_num
  rw [h39] at msub
  have mconc : (139 : Int) * 171 ≡ -39 [ZMOD 256] := by
    show ((139 : Int) * 171) % 256 = (-39 : Int) % 256
    decide
  have mdif := msub.trans mconc.symm
  have hdvd := Int.ModEq.dvd mdif
  have heq2 : (139 : Int) * 171 - 139 * (i : Int) = 139 * (171 - (i : Int)) := by ring
  rw [heq2] at hdvd
  have hcop : IsCoprime (256 : Int) 139 := Int.gcd_eq_one_iff_coprime.mp (by decide)
  have hdvd2 : (256 : Int) ∣ (171 - (i : Int)) := hcop.dvd_of_dvd_mul_left hdvd
  obtain ⟨t, ht⟩ := hdvd2
  have hi : i = 171 := by omega
  have hicast : (i : Int) = 171 := by omega
  rw [hicast] at m1
  refine ⟨hi, ?_⟩
  have mc2 : (171 : Int) * (4 - 7) ≡ 255 [ZMOD 256] := by
    show ((171 : Int) * (4 - 7)) % 256 = (255 : Int) % 256
    decide
  have mdif2 := m1.trans mc2.symm
  have hdvd3 := Int.ModEq.dvd mdif2
  have heq3 : (171 : Int) * (4 - 7) - 171 * (4 - (j : Int)) = 171 * ((j : Int) - 7) := by
    ring
  rw [heq3] at hdvd3
  have hcop2 : IsCoprime (256 : Int) 171 := Int.gcd_eq_one_iff_coprime.mp (by decide)
  have hdvd4 : (256 : Int) ∣ ((j : Int) - 7) := hcop2.dvd_of_dvd_mul_left hdvd3
  obtain ⟨t2, ht2⟩ := hdvd4
  omega

/-- C3: on any ciphertext of at least two bytes, brute_force returns the
lexicographically first pair (m_inverse, b) (outer m_inverse ascending from
1 to 255, inner b ascending from 0 to 255) whose two decrypted header bytes
are 0xFF and 0xD8, returns the not-found sentinel exactly when no pair in
the space satisfies both checks, and on any ciphertext starting with bytes
4, 143 it returns (171, 7). -/
theorem C3_brute_force_first_match :
    ∀ (c0 c1 : Int) (rest : List Int),
      (∀ r, brute_force (c0 :: c1 :: rest) = some r →
        ∃ i j : Nat, 1 ≤ i ∧ i ≤ 255 ∧ j ≤ 255 ∧ r = ((i : Int), (j : Int)) ∧
          hitB i j c0 c1 ∧
          ∀ i2 j2 : Nat, 1 ≤ i2 → i2 ≤ 255 → j2 ≤ 255 → hitB i2 j2 c0 c1 →
            i < i2 ∨ (i = i2 ∧ j ≤ j2)) ∧
      (brute_force (c0 :: c1 :: rest) = none ↔
        ∀ i j : Nat, 1 ≤ i → i ≤ 255 → j ≤ 255 → ¬ hitB i j c0 c1) ∧
      (c0 = 4 → c1 = 143 → brute_force (c0 :: c1 :: rest) = some (171, 7)) := by
  intro c0 c1 rest
  have hbf : brute_force (c0 :: c1 :: rest) = bfOuter c0 c1 1 255 := rfl
  refine ⟨?_, ?_, ?_⟩
  · intro r h
    rw [hbf] at h
    obtain ⟨i, j, hi1, hi2, hj, hhit, hmin1, hmin2, hr⟩ := bfOuter_some_spec 255 1 c0 c1 r h
    refine ⟨i, j, hi1, by omega, by omega, hr, hhit, ?_⟩
    intro i2 j2 g1 g2 g3 ghit
    by_cases hlt : i2 < i
    · exact absurd ghit (hmin1 i2 g1 hlt j2 (by omega))
    · by_cases heq : i = i2
      · subst heq
        by_cases hjlt : j2 < j
        · exact absurd ghit (hmin2 j2 hjlt)
        · exact Or.inr ⟨rfl, by omega⟩
      · exact Or.inl (by omega)
  · rw [hbf, bfOuter_none_iff 255 1 c0 c1]
    constructor
    · intro h i j g1 g2 g3
      exact h i g1 (by omega) j (by omega)
    · intro h i g1 g2 j hj
      exact h i j g1 (by omega) (by omega)
  · intro hc0 hc1
    subst hc0
    subst hc1
    cases hres : brute_force ((4 : Int) :: (143 : Int) :: rest) with
    | none =>
      rw [hbf] at hres
      have hno := (bfOuter_none_iff 255 1 4 143).mp hres 171 (by omega) (by omega) 7 (by omega)
      exact absurd (by decide : hitB 171 7 4 143) hno
    | some r =>
      rw [hbf] at hres
      obtain ⟨i, j, hi1, hi2, hj, hhit, _, _, hr⟩ := bfOuter_some_spec 255 1 4 143 r hres
      obtain ⟨hie, hje⟩ := hitB_4_143_unique i j hi1 (by omega) (by omega) hhit
      subst hie
      subst hje
      rw [hr]
      norm_num

/-- Witness for C3 at the concrete ciphertext [4, 143]. -/
theorem C3_brute_force_first_match_witness : brute_force [4, 143] = some (171, 7) :=
  (C3_brute_force_first_match 4 143 []).2.2 rfl rfl

/-- C4: whenever brute_force finds a candidate pair with odd m_inverse on a
ciphertext of at least two bytes, exhaustive_key returns the identical pair
on the same ciphertext. -/
theorem C4_exhaustive_key_matches_brute_force :
    ∀ (c0 c1 : Int) (rest : List Int) (i j : Int),
      brute_force (c0 :: c1 :: rest) = some (i, j) → i % 2 = 1 →
      exhaustive_key (c0 :: c1 :: rest) = some (i, j) := by
  intro c0 c1 rest i j hbf hodd
  have hbfe : brute_force (c0 :: c1 :: rest) = bfOuter c0 c1 1 255 := rfl
  have heke : exhaustive_key (c0 :: c1 :: rest) = ekOuter c0 c1 1 255 := rfl
  rw [hbfe] at hbf
  obtain ⟨iN, jN, hi1, hi2, hjN, hhit, hmin1, hmin2, hr⟩ :=
    bfOuter_some_spec 255 1 c0 c1 (i, j) hbf
  rw [Prod.mk.injEq] at hr
  obtain ⟨hie, hje⟩ := hr
  have hoddN : iN % 2 = 1 := by omega
  have hg : exhaustive_key_affine.gcd iN 256 = 1 := (ek_gcd_odd iN (by omega)).mpr hoddN
  rw [heke]
  cases hek : ekOuter c0 c1 1 255 with
  | none =>
    have hno := (ekOuter_none_iff 255 1 c0 c1).mp hek iN hi1 (by omega) hg jN (by omega)
    exact absurd hhit hno
  | some r2 =>
    obtain ⟨i2, j2, g1, g2, gg, g3, ghit, gmin1, gmin2, gr⟩ :=
      ekOuter_some_spec 255 1 c0 c1 r2 hek
    have hcmp2 : ¬ iN < i2 := by
      intro hlt
      exact absurd hhit (gmin1 iN hi1 hlt hg jN (by omega))
    have hcmp1 : iN < i2 ∨ (iN = i2 ∧ jN ≤ j2) := by
      by_cases hlt : i2 < iN
      · exact absurd ghit (hmin1 i2 g1 hlt j2 (by omega))
      · by_cases heq2 : iN = i2
        · subst heq2
          by_cases hjl : j2 < jN
          · exact absurd ghit (hmin2 j2 hjl)
          · exact Or.inr ⟨rfl, by omega⟩
        · exact Or.inl (by omega)
    have hieq2 : iN = i2 := by
      rcases hcmp1 with hlt | ⟨heq2, _⟩
      · exact absurd hlt hcmp2
      · exact heq2
    subst hieq2
    have hjeq : jN = j2 := by
      rcases hcmp1 with hlt | ⟨_, hle⟩
      · omega
      · by_contra hne
        have hlt2 : jN < j2 := by omega
        exact absurd hhit (gmin2 jN hlt2)
    subst hjeq
    rw [gr, hie, hje]

/-- Witness for C4 on the ciphertext [255, 216], where brute_force finds the
odd candidate (1, 0) immediately. -/
theorem C4_exhaustive_key_matches_brute_force_witness :
    exhaustive_key [255, 216] = some (1, 0) :=
  C4_exhaustive_key_matches_brute_force 255 216 [] 1 0 (by decide) (by decide)

/-- C10: for an even multiplier candidate the decrypt transform only
produces even bytes, so it never produces 0xFF, and consequently neither
brute_force nor exhaustive_key ever returns a candidate pair whose
m_inverse component is even. -/
theorem C10_even_m_inverse_never_candidate :
    (∀ i b C : Int, i % 2 = 0 → 0 ≤ b → b ≤ 255 → 0 ≤ C → C ≤ 255 →
      decrypt_affine i 256 b C % 2 = 0 ∧ decrypt_affine i 256 b C ≠ 255) ∧
    (∀ (ct : List Int) (i j : Int), brute_force ct = some (i, j) → ¬ i % 2 = 0) ∧
    (∀ (ct : List Int) (i j : Int), exhaustive_key ct = some (i, j) → ¬ i % 2 = 0) := by
  refine ⟨?_, ?_, ?_⟩
  · intro i b C h _ _ _ _
    have he := decrypt_affine_even i b C h
    refine ⟨he, ?_⟩
    intro hc
    rw [hc] at he
    norm_num at he
  · intro ct i j h hpar
    cases ct with
    | nil => simp [brute_force] at h
    | cons c0 tl =>
      cases tl with
      | nil => simp [brute_force] at h
      | cons c1 rest =>
        have hbfe : brute_force (c0 :: c1 :: rest) = bfOuter c0 c1 1 255 := rfl
        rw [hbfe] at h
        obtain ⟨iN, jN, _, _, _, hhit, _, _, hr⟩ := bfOuter_some_spec 255 1 c0 c1 (i, j) h
        rw [Prod.mk.injEq] at hr
        have hoddN := hitB_odd iN jN c0 c1 hhit
        omega
  · intro ct i j h hpar
    cases ct with
    | nil => simp [exhaustive_key] at h
    | cons c0 tl =>
      cases tl with
      | nil => simp [exhaustive_key] at h
      | cons c1 rest =>
        have heke : exhaustive_key (c0 :: c1 :: rest) = ekOuter c0 c1 1 255 := rfl
        rw [heke] at h
        obtain ⟨iN, jN, _, _, _, _, hhit, _, _, hr⟩ := ekOuter_some_spec 255 1 c0 c1 (i, j) h
        rw [Prod.mk.injEq] at hr
        have hoddN := hitB_odd iN jN c0 c1 hhit
        omega

/-- Witness for C10 at the even multiplier 2 with b = C = 0. -/
theorem C10_even_m_inverse_never_candidate_witness :
    decrypt_affine 2 256 0 0 % 2 = 0 ∧ decrypt_affine 2 256 0 0 ≠ 255 :=
  C10_even_m_inverse_never_candidate.1 2 0 0 (by decide) (by decide) (by decide)
    (by decide) (by decide)

/-- C1 (code bug): the claim asserts m_inverse_affine(m, 256) returns an
inverse for every m in [1, 255] coprime with 256, but at the coprime input
m = 1 the division chain is the single step (1, 256, 256, 0), so the Python
subscript gcd_affine[-2] raises IndexError instead of returning 1. -/
theorem C1_inverse_crashes_at_one :
    Nat.gcd 1 256 = 1 ∧ m_inverse_affine 1 256 = Except.error PyError.indexError := by
  decide

/-- C2 (code bug): the round-trip claim fails at m = 1, b = 0, P = 0, where
the ciphertext byte is (1 * 0 + 0) mod 256 = 0: m_inverse_affine(1, 256)
raises IndexError, so no inverse value exists for decrypt_affine to
round-trip with. -/
theorem C2_roundtrip_impossible_at_one :
    ¬ ∃ x : Int, m_inverse_affine 1 256 = Except.ok x ∧ decrypt_affine x 256 0 0 = 0 := by
  intro ⟨x, hx, _⟩
  rw [show m_inverse_affine 1 256 = Except.error PyError.indexError from by decide] at hx
  exact Except.noConfusion hx

/-- C5 (code bug): m_inverse_affine(128, 256) does not signal NotCoprime
(AffineException code 3 with the chain attached); its chain is the single
step (128, 256, 2, 0) and the gcd_affine[-2] subscript raises IndexError. -/
theorem C5_not_coprime_raises_index_error :
    modulo_formula 128 256 = Except.ok ⟨128, 256, 2, 0⟩ ∧
    m_inverse_affine 128 256 = Except.error PyError.indexError ∧
    ∀ dump, m_inverse_affine 128 256 ≠ Except.error (PyError.affine 3 (some dump)) := by
  refine ⟨by decide, by decide, ?_⟩
  intro dump h
  rw [show m_inverse_affine 128 256 = Except.error PyError.indexError from by decide] at h
  exact PyError.noConfusion (Except.error.inj h)

/-- C6: on the known-plaintext samples p = [5, 2], c = [22, 13], the solver
returns exactly m = 3, m_inverse = 171, b = 7, whichever of the two indices
the random selection draws first. -/
theorem C6_known_plaintext_recovery :
    ∀ pick1 : Nat, pick1 < 2 → ∀ pick2 : Nat, pick2 < 1 →
      analyze_known_plaintext [5, 2] [22, 13] pick1 pick2 = Except.ok ⟨3, 171, 7⟩ := by
  decide

/-- Witness for C6 with the second sample drawn first (the swap path). -/
theorem C6_known_plaintext_recovery_witness :
    analyze_known_plaintext [5, 2] [22, 13] 1 0 = Except.ok ⟨3, 171, 7⟩ :=
  C6_known_plaintext_recovery 1 (by decide) 0 (by decide)

/-- C7 (code bug): with selected pairs giving the differences 128 (plaintext)
and 130 (ciphertext), 130 is not divisible by gcd(128, 256) = 128, but the
solver does not signal NoSolution (AffineException code 7): the inner call
m_inverse_affine(128, 256) raises IndexError, which the except clause for
AffineException does not catch, so IndexError propagates. -/
theorem C7_no_solution_raises_index_error :
    (130 : Int).fmod 128 ≠ 0 ∧
    analyze_known_plaintext [128, 0] [130, 0] 0 0 = Except.error PyError.indexError ∧
    analyze_known_plaintext [128, 0] [130, 0] 0 0 ≠ Except.error (PyError.affine 7 none) := by
  decide

/-- C8 counterexample: on the two-element inputs [5, 2] and [22, 13] the
call empties both caller-supplied lists, so they are not left unchanged. -/
theorem C8_lists_mutated_counterexample :
    (analyze_known_plaintext_full [5, 2] [22, 13] 0 0).2.1 = ([] : List Int) ∧
    (analyze_known_plaintext_full [5, 2] [22, 13] 0 0).2.2 = ([] : List Int) ∧
    ([] : List Int) ≠ [5, 2] := by
  decide

/-- C8 amended: analyze_known_plaintext mutates its two input lists by
popping the two selected indices from each; after the call each list equals
the double eraseIdx of its old value (so it is two elements shorter, with
the remaining elements unchanged). -/
theorem C8_amended_pops_two_elements :
    ∀ (kp kc : List Int) (pick1 pick2 : Nat),
      kp.length = kc.length → 2 ≤ kp.length → pick1 < kp.length → pick2 < kp.length - 1 →
      (analyze_known_plaintext_full kp kc pick1 pick2).2.1 =
        (kp.eraseIdx pick1).eraseIdx pick2 ∧
      (analyze_known_plaintext_full kp kc pick1 pick2).2.2 =
        (kc.eraseIdx pick1).eraseIdx pick2 ∧
      ((analyze_known_plaintext_full kp kc pick1 pick2).2.1).length = kp.length - 2 ∧
      ((analyze_known_plaintext_full kp kc pick1 pick2).2.2).length = kc.length - 2 := by
  intro kp kc pick1 pick2 hlen h2 hp1 hp2
  have hp1c : pick1 < kc.length := by omega
  have hp2a : pick2 < (kp.eraseIdx pick1).length := by
    rw [List.length_eraseIdx_of_lt hp1]
    omega
  have hp2c : pick2 < (kc.eraseIdx pick1).length := by
    rw [List.length_eraseIdx_of_lt hp1c]
    omega
  unfold analyze_known_plaintext_full
  rw [if_neg (by omega), if_neg (by omega)]
  rw [List.getElem?_eq_getElem hp1, List.getElem?_eq_getElem hp1c]
  dsimp only
  rw [List.getElem?_eq_getElem hp2a, List.getElem?_eq_getElem hp2c]
  dsimp only
  split_ifs with hfs <;>
    exact ⟨rfl, rfl,
      by rw [List.length_eraseIdx_of_lt hp2a, List.length_eraseIdx_of_lt hp1]; omega,
      by rw [List.length_eraseIdx_of_lt hp2c, List.length_eraseIdx_of_lt hp1c]; omega⟩

/-- Witness for the amended C8 on the concrete inputs [5, 2] and [22, 13]
with both picks 0. -/
theorem C8_amended_pops_two_elements_witness :
    (analyze_known_plaintext_full [5, 2] [22, 13] 0 0).2.1 =
      (([5, 2] : List Int).eraseIdx 0).eraseIdx 0 ∧
    (analyze_known_plaintext_full [5, 2] [22, 13] 0 0).2.2 =
      (([22, 13] : List Int).eraseIdx 0).eraseIdx 0 ∧
    ((analyze_known_plaintext_full [5, 2] [22, 13] 0 0).2.1).length =
      ([5, 2] : List Int).length - 2 ∧
    ((analyze_known_plaintext_full [5, 2] [22, 13] 0 0).2.2).length =
      ([22, 13] : List Int).length - 2 :=
  C8_amended_pops_two_elements [5, 2] [22, 13] 0 0 (by decide) (by decide) (by decide)
    (by decide)
